import Mathlib

/-!
Verification of the free-list memory allocator in `src/memalloc.c`.

The allocator manages a caller-supplied arena through a global free list of
blocks.  We embed the engine shallowly: arena addresses are `Nat`, a block is
its start address plus its total span in bytes, and the free list is a Lean
`List Block` in the same order as the C doubly linked list.  Used blocks are
not tracked by the C code (only the caller holds their pointers); we carry
them as ghost state so conservation can be stated.

Header layout (the struct definitions live in `pintos/memalloc.h`, which is
not part of the sources here).  Modelled from the spec: a used block is a
length field followed by the payload (`size_t length; uint8_t data[];`, 8
bytes of header on the 64-bit layout the code assumes), and a free block is a
length field followed by the list linkage (`size_t length; struct list_elem
elem;`, two pointers of linkage, 24 bytes in total).
-/

namespace MemAlloc

/-- Size in bytes of `struct used_block` (the header preceding the payload). -/
def used_block_size : Nat := 8

/-- Size in bytes of `struct free_block` (length field plus list linkage). -/
def free_block_size : Nat := 24

/-- Byte offset of the `elem` field inside `struct free_block`; the list
links free blocks through pointers to this field. -/
def elem_offset : Nat := 8

/-- A span of arena bytes: start address and total length in bytes.  For a
free block `len` is the stored length (header included); for a used block we
record the total span, i.e. `sizeof(struct used_block)` plus the stored
payload length. -/
structure Block where
  addr : Nat
  len : Nat
deriving DecidableEq, Repr

/-- Address of the `elem` field of a free block, the value the C code hands
to `compare`. -/
def elemAddr (b : Block) : Nat := b.addr + elem_offset

/-- Data pointer of a used block: the address just past its header, which is
what `mem_alloc` returns (`ub->data`). -/
def dataPtr (b : Block) : Nat := b.addr + used_block_size

/-- Sum of the lengths of a list of blocks. -/
def suml (l : List Block) : Nat := (l.map Block.len).sum

/-- The three-way comparison `compare` from `memalloc.c` lines 87-103:
`-1` when the first address is lower, `0` when equal, `1` when higher. -/
def compare3 (a b : Nat) : Int :=
  if a < b then -1 else if a = b then 0 else 1

/-- The value of `compare` as the caller sees it: the function is declared
with return type `bool`, so the C integer result is converted to a boolean,
`0` becoming `false` and both `-1` and `1` becoming `true`. -/
def compare (a b : Nat) : Bool := !(compare3 a b == 0)

/-- Ordered insertion into the free list.  Modelled from the spec: the list
collection inserts the new element immediately before the first existing
element `e` for which the supplied boolean predicate holds of `(new, e)`,
and at the tail when it holds of no element.  The predicate applied is
`compare` on the addresses of the `elem` fields. -/
def list_insert_ordered (x : Block) : List Block → List Block
  | [] => [x]
  | y :: ys =>
    if compare (elemAddr x) (elemAddr y) then x :: y :: ys
    else y :: list_insert_ordered x ys

/-- Last element of the list satisfying `p`.  The scan loop of `mem_free`
(lines 123-139) overwrites `fb_before` / `fb_after` on every match, so the
value left after the loop is the last match, i.e. the first match of the
reversed list. -/
def findLast (p : Block → Bool) (fl : List Block) : Option Block :=
  fl.reverse.find? p

/-- Removal of the list node held in `e_to_remove`: the last element of the
list satisfying `p`. -/
def eraseLast (p : Block → Bool) (fl : List Block) : List Block :=
  (fl.reverse.eraseP p).reverse

/-- Replace the first element satisfying `p` by its image under `f`. -/
def replaceFirst (p : Block → Bool) (f : Block → Block) : List Block → List Block
  | [] => []
  | b :: bs => if p b then f b :: bs else b :: replaceFirst p f bs

/-- In-place update of the node held in `fb_before`: the last element of the
list satisfying `p` is replaced by its image under `f`, everything else is
unchanged. -/
def replaceLast (p : Block → Bool) (f : Block → Block) (fl : List Block) : List Block :=
  (replaceFirst p f fl.reverse).reverse

/-- Clamped request length, `memalloc.c` lines 37-45: requests below
`min_alloc_size = sizeof(struct free_block) - sizeof(struct used_block)` are
raised to it, so that the block can later be freed in isolation. -/
def clampLen (length : Nat) : Nat :=
  if length < free_block_size - used_block_size then
    free_block_size - used_block_size
  else length

/-- Total size carved out of a free block for a request, line 47:
clamped length plus the used-block header. -/
def size_needed (length : Nat) : Nat := clampLen length + used_block_size

/-- The first-fit scan of `mem_alloc`, lines 49-78, over the free list for a
given `size_needed`.  On success it yields the returned data pointer, the
installed used block (header address and total span), and the free list
after the operation.  When the leftover of the chosen block is smaller than
a free-block header, the whole block is consumed (`length += leftover`, the
node is removed); otherwise the used block is carved from the high end and
the free block keeps its address with its length shrunk. -/
def allocLoop (needed : Nat) : List Block → Option (Nat × Block × List Block)
  | [] => none
  | fb :: rest =>
    if fb.len < needed then
      match allocLoop needed rest with
      | none => none
      | some (ptr, u, rest') => some (ptr, u, fb :: rest')
    else
      if fb.len - needed < free_block_size then
        some (fb.addr + used_block_size, ⟨fb.addr, fb.len⟩, rest)
      else
        some (fb.addr + fb.len - needed + used_block_size,
              ⟨fb.addr + fb.len - needed, needed⟩,
              ⟨fb.addr, fb.len - needed⟩ :: rest)

/-- The function `mem_alloc`, lines 31-84, acting on the free list.  Returns
`none` when no block is large enough (the C function returns `NULL`), and
otherwise the data pointer, the installed used block, and the new free
list. -/
def mem_alloc (length : Nat) (fl : List Block) : Option (Nat × Block × List Block) :=
  allocLoop (size_needed length) fl

/-- Core of `mem_free`, lines 120-178, for a non-null pointer `ptr` whose
used-block header stores payload length `stored`.  The scan finds the last
free block ending at the freed header (`fb_before`) and the last free block
starting just past the freed span (`fb_after`); the four cases then insert,
extend in place, merge down, or merge both ways.  In the two merging cases
that remove a node, the C code removes the node captured in `e_to_remove`
during the scan; we erase the last element satisfying the same predicate,
which is that node. -/
def mem_free (ptr : Nat) (stored : Nat) (fl : List Block) : List Block :=
  let ub := ptr - used_block_size
  let available_space := used_block_size + stored
  let beforeP : Block → Bool := fun fb => fb.addr + fb.len == ub
  let afterP : Block → Bool := fun fb => fb.addr == ub + available_space
  match findLast beforeP fl, findLast afterP fl with
  | none, none =>
    list_insert_ordered ⟨ub, available_space⟩ fl
  | some _, none =>
    replaceLast beforeP (fun fb => ⟨fb.addr, fb.len + available_space⟩) fl
  | none, some fa =>
    eraseLast afterP (list_insert_ordered ⟨ub, available_space + fa.len⟩ fl)
  | some _, some fa =>
    eraseLast afterP
      (replaceLast beforeP (fun fb => ⟨fb.addr, fb.len + available_space + fa.len⟩) fl)

/-- Entry of `mem_free` including the global lock, lines 107-118: the mutex
is taken unconditionally, and the null check returns *before* the unlock, so
on `ptr = 0` (NULL) the function returns with the lock still held.  The
boolean component records whether the lock is still held when the call
returns. -/
def mem_free_entry (ptr : Nat) (stored : Nat) (fl : List Block) : List Block × Bool :=
  if ptr = 0 then (fl, true)
  else (mem_free ptr stored fl, false)

/-- The allocator state at a quiescent point: the free list in list order,
plus the outstanding used blocks as ghost state (the C code does not track
them; their existence is known only through the pointers handed out). -/
structure AllocState where
  freeList : List Block
  used : List Block
deriving DecidableEq, Repr

/-- The function `mem_init`, lines 16-28: one free block spanning the whole
arena, and no outstanding allocation. -/
def mem_init (base length : Nat) : AllocState :=
  ⟨[⟨base, length⟩], []⟩

/-- State transition of a successful or failed `mem_alloc` call: on success
the new free list is installed and the used block is recorded; on failure
nothing changes. -/
def allocStep (length : Nat) (s : AllocState) : AllocState :=
  match mem_alloc length s.freeList with
  | none => s
  | some (_, u, fl') => ⟨fl', u :: s.used⟩

/-- State transition of `mem_free` on a valid pointer: the used block `b`
was previously returned by `mem_alloc`, so the pointer passed is its data
pointer and its header stores `b.len - used_block_size`. -/
def freeStep (b : Block) (s : AllocState) : AllocState :=
  ⟨mem_free (dataPtr b) (b.len - used_block_size) s.freeList, s.used.erase b⟩

/-- An operation against the allocator: an allocation request, or the free
of a previously returned pointer (identified by its used block). -/
inductive Op where
  | alloc : Nat → Op
  | free : Block → Op
deriving DecidableEq, Repr

/-- One completed operation.  Freeing a pointer that is not currently
outstanding is a precondition violation (undefined behaviour per the spec),
so the trace semantics only performs frees of outstanding blocks. -/
def step (s : AllocState) : Op → AllocState
  | .alloc n => allocStep n s
  | .free b => if b ∈ s.used then freeStep b s else s

/-- Run a sequence of operations from a state. -/
def run (ops : List Op) (s : AllocState) : AllocState :=
  ops.foldl step s

/-- Run a sequence of `mem_alloc` calls, requiring every one of them to
succeed (`none` when any fails). -/
def runAllocs : List Nat → AllocState → Option AllocState
  | [], s => some s
  | n :: ns, s =>
    match mem_alloc n s.freeList with
    | none => none
    | some (_, u, fl') => runAllocs ns ⟨fl', u :: s.used⟩

/-- Free a list of outstanding blocks, in the given order. -/
def runFrees (order : List Block) (s : AllocState) : AllocState :=
  order.foldl (fun s b => freeStep b s) s

/-- Strict ascending address order of the free list (invariant I2). -/
def addrSorted : List Block → Bool
  | [] => true
  | [_] => true
  | a :: b :: t => a.addr < b.addr && addrSorted (b :: t)

/-! ### Tiling: the conservation invariant

A multiset of blocks *tiles* the arena `[lo, hi)` when some ordering of it
forms a gapless, overlap-free chain of consecutive spans from `lo` to `hi`.
This is invariant I1: every arena byte belongs to exactly one block. -/

/-- Blocks listed in address order forming consecutive spans from `lo` to
`hi`. -/
inductive chain : Nat → Nat → List Block → Prop
  | nil (lo : Nat) : chain lo lo []
  | cons (b : Block) (bs : List Block) (lo hi : Nat) (hb : b.addr = lo)
      (hc : chain (lo + b.len) hi bs) : chain lo hi (b :: bs)

/-- A multiset of blocks partitions `[lo, hi)`: some permutation of it is a
consecutive chain. -/
def tiles (lo hi : Nat) (ms : List Block) : Prop :=
  ∃ l, List.Perm ms l ∧ chain lo hi l

/-- No free block is immediately followed by another free block (any such
pair would be an unmerged adjacency). -/
def NoAdjFree (fl : List Block) : Prop :=
  ∀ b ∈ fl, ∀ c ∈ fl, b.addr + b.len ≠ c.addr

theorem suml_cons (b : Block) (l : List Block) : suml (b :: l) = b.len + suml l := by
  simp [suml]

theorem suml_append (l1 l2 : List Block) : suml (l1 ++ l2) = suml l1 + suml l2 := by
  simp [suml]

theorem suml_perm {l1 l2 : List Block} (h : List.Perm l1 l2) : suml l1 = suml l2 :=
  (h.map Block.len).sum_eq

theorem chain_le {lo hi : Nat} {l : List Block} (h : chain lo hi l) : lo ≤ hi := by
  induction h with
  | nil lo => exact Nat.le_refl _
  | cons b bs lo hi hb hc ih => omega

theorem chain_sum {lo hi : Nat} {l : List Block} (h : chain lo hi l) :
    lo + suml l = hi := by
  induction h with
  | nil lo => simp [suml]
  | cons b bs lo hi hb hc ih => rw [suml_cons]; omega

theorem chain_mem {lo hi : Nat} {l : List Block} (h : chain lo hi l) :
    ∀ b ∈ l, lo ≤ b.addr ∧ b.addr + b.len ≤ hi := by
  induction h with
  | nil lo => simp
  | cons b bs lo hi hb hc ih =>
    intro c hcm
    rcases List.mem_cons.mp hcm with rfl | hm
    · have := chain_le hc; omega
    · have := ih c hm; omega

theorem chain_append {lo hi : Nat} {l1 l2 : List Block} :
    chain lo hi (l1 ++ l2) ↔ ∃ m, chain lo m l1 ∧ chain m hi l2 := by
  induction l1 generalizing lo with
  | nil =>
    constructor
    · intro h; exact ⟨lo, chain.nil lo, h⟩
    · rintro ⟨m, h1, h2⟩; cases h1; exact h2
  | cons b bs ih =>
    constructor
    · intro h
      cases h with
      | cons _ _ _ _ hb hc =>
        rcases ih.mp hc with ⟨m, h1, h2⟩
        exact ⟨m, chain.cons b bs lo m hb h1, h2⟩
    · rintro ⟨m, h1, h2⟩
      cases h1 with
      | cons _ _ _ _ hb hc =>
        exact chain.cons b (bs ++ l2) lo hi hb (ih.mpr ⟨m, hc, h2⟩)

theorem chain_addr_unique {lo hi : Nat} {l : List Block} (h : chain lo hi l) :
    (∀ b ∈ l, 0 < b.len) →
    ∀ b ∈ l, ∀ c ∈ l, b.addr = c.addr → b = c := by
  induction h with
  | nil lo => intro _ b hb; simp at hb
  | cons b bs lo hi hb hc ih =>
    intro hpos x hxm y hym heq
    rcases List.mem_cons.mp hxm with rfl | hxm0
    · rcases List.mem_cons.mp hym with rfl | hym0
      · rfl
      · exfalso
        have h1 := chain_mem hc y hym0
        have h2 := hpos x (List.mem_cons_self _ _)
        omega
    · rcases List.mem_cons.mp hym with rfl | hym0
      · exfalso
        have h1 := chain_mem hc x hxm0
        have h2 := hpos y (List.mem_cons_self _ _)
        omega
      · exact ih (fun d hd => hpos d (List.mem_cons_of_mem _ hd)) x hxm0 y hym0 heq

theorem chain_disjoint {lo hi : Nat} {l : List Block} (h : chain lo hi l) :
    ∀ b ∈ l, ∀ c ∈ l, ∀ x : Nat,
      b.addr ≤ x → x < b.addr + b.len → c.addr ≤ x → x < c.addr + c.len → b = c := by
  induction h with
  | nil lo => intro b hb; simp at hb
  | cons b bs lo hi hb hc ih =>
    intro p hpm q hqm x h1 h2 h3 h4
    rcases List.mem_cons.mp hpm with rfl | hpm0
    · rcases List.mem_cons.mp hqm with rfl | hqm0
      · rfl
      · exfalso; have := chain_mem hc q hqm0; omega
    · rcases List.mem_cons.mp hqm with rfl | hqm0
      · exfalso; have := chain_mem hc p hpm0; omega
      · exact ih p hpm0 q hqm0 x h1 h2 h3 h4

theorem chain_cover {lo hi : Nat} {l : List Block} (h : chain lo hi l) :
    ∀ x : Nat, lo ≤ x → x < hi → ∃ b, b ∈ l ∧ b.addr ≤ x ∧ x < b.addr + b.len := by
  induction h with
  | nil lo => intro x h1 h2; omega
  | cons b bs lo hi hb hc ih =>
    intro x h1 h2
    by_cases hx : x < lo + b.len
    · exact ⟨b, List.mem_cons_self _ _, by omega, by omega⟩
    · rcases ih x (by omega) h2 with ⟨c, hm, hc1, hc2⟩
      exact ⟨c, List.mem_cons_of_mem _ hm, hc1, hc2⟩

theorem tiles_perm {lo hi : Nat} {ms ms' : List Block}
    (hp : List.Perm ms ms') (h : tiles lo hi ms) : tiles lo hi ms' := by
  obtain ⟨l, hl, hc⟩ := h
  exact ⟨l, hp.symm.trans hl, hc⟩

theorem tiles_sum {lo hi : Nat} {ms : List Block} (h : tiles lo hi ms) :
    lo + suml ms = hi := by
  obtain ⟨l, hl, hc⟩ := h
  rw [suml_perm hl]; exact chain_sum hc

theorem tiles_mem {lo hi : Nat} {ms : List Block} (h : tiles lo hi ms) :
    ∀ b ∈ ms, lo ≤ b.addr ∧ b.addr + b.len ≤ hi := by
  obtain ⟨l, hl, hc⟩ := h
  intro b hb
  exact chain_mem hc b (hl.mem_iff.mp hb)

theorem tiles_addr_unique {lo hi : Nat} {ms : List Block} (h : tiles lo hi ms)
    (hpos : ∀ b ∈ ms, 0 < b.len) :
    ∀ b ∈ ms, ∀ c ∈ ms, b.addr = c.addr → b = c := by
  obtain ⟨l, hl, hc⟩ := h
  intro b hb c hcm heq
  exact chain_addr_unique hc (fun d hd => hpos d (hl.mem_iff.mpr hd))
    b (hl.mem_iff.mp hb) c (hl.mem_iff.mp hcm) heq

theorem tiles_disjoint {lo hi : Nat} {ms : List Block} (h : tiles lo hi ms) :
    ∀ b ∈ ms, ∀ c ∈ ms, ∀ x : Nat,
      b.addr ≤ x → x < b.addr + b.len → c.addr ≤ x → x < c.addr + c.len → b = c := by
  obtain ⟨l, hl, hc⟩ := h
  intro b hb c hcm
  exact chain_disjoint hc b (hl.mem_iff.mp hb) c (hl.mem_iff.mp hcm)

theorem tiles_cover {lo hi : Nat} {ms : List Block} (h : tiles lo hi ms) :
    ∀ x : Nat, lo ≤ x → x < hi → ∃ b, b ∈ ms ∧ b.addr ≤ x ∧ x < b.addr + b.len := by
  obtain ⟨l, hl, hc⟩ := h
  intro x h1 h2
  rcases chain_cover hc x h1 h2 with ⟨b, hb, h3, h4⟩
  exact ⟨b, hl.mem_iff.mpr hb, h3, h4⟩

theorem tiles_split {lo hi a n k : Nat} {ms : List Block}
    (h : tiles lo hi (⟨a, n⟩ :: ms)) (hk : k ≤ n) :
    tiles lo hi (⟨a, n - k⟩ :: ⟨a + (n - k), k⟩ :: ms) := by
  obtain ⟨l, hp, hc⟩ := h
  have hmem : (⟨a, n⟩ : Block) ∈ l := hp.mem_iff.mp (List.mem_cons_self _ _)
  obtain ⟨u, v, rfl⟩ := List.append_of_mem hmem
  obtain ⟨m, h1, h2⟩ := chain_append.mp hc
  cases h2 with
  | cons _ _ _ _ hb hcv =>
  have ha : a = m := hb
  have hcv' : chain (m + n) hi v := hcv
  have c2 : chain (m + (n - k) + k) hi v := by
    have he : m + (n - k) + k = m + n := by omega
    rw [he]; exact hcv'
  have c1 : chain m hi (⟨a, n - k⟩ :: ⟨a + (n - k), k⟩ :: v) := by
    refine chain.cons _ _ _ _ ha ?_
    refine chain.cons _ _ _ _ ?_ ?_
    · show a + (n - k) = m + (⟨a, n - k⟩ : Block).len
      show a + (n - k) = m + (n - k)
      omega
    · show chain (m + (⟨a, n - k⟩ : Block).len + (⟨a + (n - k), k⟩ : Block).len) hi v
      exact c2
  have hms : List.Perm ms (u ++ v) := by
    have := hp.trans List.perm_middle
    exact this.cons_inv
  refine ⟨u ++ ⟨a, n - k⟩ :: ⟨a + (n - k), k⟩ :: v, ?_, chain_append.mpr ⟨m, h1, c1⟩⟩
  have p1 : List.Perm (⟨a, n - k⟩ :: ⟨a + (n - k), k⟩ :: ms : List Block)
      (⟨a, n - k⟩ :: ⟨a + (n - k), k⟩ :: (u ++ v)) := ((hms.cons _).cons _)
  have p2 : List.Perm (⟨a, n - k⟩ :: ⟨a + (n - k), k⟩ :: (u ++ v) : List Block)
      (⟨a, n - k⟩ :: (u ++ ⟨a + (n - k), k⟩ :: v)) := (List.perm_middle.symm).cons _
  have p3 : List.Perm (⟨a, n - k⟩ :: (u ++ ⟨a + (n - k), k⟩ :: v) : List Block)
      (u ++ ⟨a, n - k⟩ :: ⟨a + (n - k), k⟩ :: v) := List.perm_middle.symm
  exact p1.trans (p2.trans p3)

theorem tiles_merge {lo hi a n m : Nat} {ms : List Block}
    (h : tiles lo hi (⟨a, n⟩ :: ⟨a + n, m⟩ :: ms))
    (hn : 0 < n) (hm : 0 < m) (hpos : ∀ b ∈ ms, 0 < b.len) :
    tiles lo hi (⟨a, n + m⟩ :: ms) := by
  obtain ⟨l, hp, hc⟩ := h
  have hposl : ∀ b ∈ l, 0 < b.len := by
    intro b hb
    have hb' := hp.mem_iff.mpr hb
    rcases List.mem_cons.mp hb' with rfl | hb2
    · exact hn
    · rcases List.mem_cons.mp hb2 with rfl | hb3
      · exact hm
      · exact hpos b hb3
  have hmem1 : (⟨a, n⟩ : Block) ∈ l := hp.mem_iff.mp (List.mem_cons_self _ _)
  obtain ⟨u, v, rfl⟩ := List.append_of_mem hmem1
  obtain ⟨mid, h1, h2⟩ := chain_append.mp hc
  cases h2 with
  | cons _ _ _ _ hb hcv =>
  have ha : a = mid := hb
  have hcv' : chain (mid + n) hi v := hcv
  have hmem2 : (⟨a + n, m⟩ : Block) ∈ u ++ ⟨a, n⟩ :: v :=
    hp.mem_iff.mp (List.mem_cons_of_mem _ (List.mem_cons_self _ _))
  rcases List.mem_append.mp hmem2 with hu | hv
  · exfalso
    have := chain_mem h1 _ hu
    simp only at this
    omega
  · rcases List.mem_cons.mp hv with heq | hv0
    · exfalso
      have : a + n = a := congrArg Block.addr heq
      omega
    · cases v with
      | nil => simp at hv0
      | cons head tail =>
        cases hcv' with
        | cons _ _ _ _ hbh hct =>
        have hha : head.addr = mid + n := hbh
        have hhead : head = ⟨a + n, m⟩ := by
          refine chain_addr_unique hc hposl head ?_ ⟨a + n, m⟩ hmem2 ?_
          · exact List.mem_append_right _ (List.mem_cons_of_mem _ (List.mem_cons_self _ _))
          · show head.addr = a + n
            omega
        have hct' : chain (a + (n + m)) hi tail := by
          have : mid + n + head.len = a + (n + m) := by
            rw [hhead]; show mid + n + m = a + (n + m); omega
          rw [← this]; exact hct
        have cmerged : chain mid hi (⟨a, n + m⟩ :: tail) := by
          refine chain.cons _ _ _ _ ha ?_
          show chain (mid + (n + m)) hi tail
          have : mid + (n + m) = a + (n + m) := by omega
          rw [this]; exact hct'
        refine ⟨u ++ ⟨a, n + m⟩ :: tail, ?_, chain_append.mpr ⟨mid, h1, cmerged⟩⟩
        have hms : List.Perm ms (u ++ tail) := by
          have q1 : List.Perm (⟨a, n⟩ :: ⟨a + n, m⟩ :: ms : List Block)
              (⟨a, n⟩ :: (u ++ head :: tail)) := hp.trans List.perm_middle
          have q2 : List.Perm (u ++ head :: tail : List Block) (head :: (u ++ tail)) :=
            List.perm_middle
          have q3 : List.Perm (⟨a + n, m⟩ :: ms : List Block) (head :: (u ++ tail)) :=
            (q1.cons_inv).trans q2
          rw [hhead] at q3
          exact q3.cons_inv
        have p1 : List.Perm (⟨a, n + m⟩ :: ms : List Block)
            (⟨a, n + m⟩ :: (u ++ tail)) := hms.cons _
        have p2 : List.Perm (⟨a, n + m⟩ :: (u ++ tail) : List Block)
            (u ++ ⟨a, n + m⟩ :: tail) := List.perm_middle.symm
        exact p1.trans p2

/-! ### List-operation lemmas -/

theorem insert_ordered_perm (x : Block) (fl : List Block) :
    List.Perm (list_insert_ordered x fl) (x :: fl) := by
  induction fl with
  | nil => exact List.Perm.refl _
  | cons y ys ih =>
    rw [list_insert_ordered]
    by_cases h : compare (elemAddr x) (elemAddr y) = true
    · rw [if_pos h]
    · rw [if_neg h]
      exact (ih.cons y).trans (List.Perm.swap x y ys)

theorem insert_ordered_mem {b x : Block} {fl : List Block} :
    b ∈ list_insert_ordered x fl ↔ b = x ∨ b ∈ fl := by
  rw [(insert_ordered_perm x fl).mem_iff]
  exact List.mem_cons

theorem findLast_eq_none {p : Block → Bool} {fl : List Block} :
    findLast p fl = none ↔ ∀ b ∈ fl, ¬ p b := by
  simp [findLast, List.find?_eq_none]

theorem findLast_prop {p : Block → Bool} {fl : List Block} {b : Block}
    (h : findLast p fl = some b) : p b = true ∧ b ∈ fl := by
  refine ⟨List.find?_some h, ?_⟩
  have := List.mem_of_find?_eq_some h
  exact List.mem_reverse.mp this

theorem find?_first {p : Block → Bool} (l1 l2 : List Block) (c : Block)
    (h1 : ∀ x ∈ l1, ¬ p x) (h2 : p c) : List.find? p (l1 ++ c :: l2) = some c := by
  induction l1 with
  | nil => simp [List.find?_cons_of_pos, h2]
  | cons d l1 ih =>
    have hd : ¬ p d := h1 d (List.mem_cons_self _ _)
    rw [List.cons_append, List.find?_cons_of_neg _ (by simpa using hd)]
    exact ih fun x hx => h1 x (List.mem_cons_of_mem _ hx)

theorem replaceFirst_of_decomp {p : Block → Bool} (f : Block → Block)
    (l1 l2 : List Block) (c : Block) (h1 : ∀ x ∈ l1, ¬ p x) (h2 : p c) :
    replaceFirst p f (l1 ++ c :: l2) = l1 ++ f c :: l2 := by
  induction l1 with
  | nil => simp [replaceFirst, h2]
  | cons d l1 ih =>
    have hd : ¬ p d = true := h1 d (List.mem_cons_self _ _)
    rw [List.cons_append, replaceFirst, if_neg hd, ih fun x hx => h1 x (List.mem_cons_of_mem _ hx)]
    rfl

theorem findLast_decomp {p : Block → Bool} {fl : List Block} {b : Block}
    (h : findLast p fl = some b) (f : Block → Block) :
    List.Perm fl (b :: eraseLast p fl)
    ∧ List.Perm (replaceLast p f fl) (f b :: eraseLast p fl) := by
  have hpb : p b = true := List.find?_some h
  have hbrev : b ∈ fl.reverse := List.mem_of_find?_eq_some h
  obtain ⟨c, l1, l2, hno, hpc, hdec, herase⟩ := List.exists_of_eraseP hbrev hpb
  have hcb : c = b := by
    have h2 : List.find? p fl.reverse = some c := by
      rw [hdec]; exact find?_first l1 l2 c hno hpc
    have : some c = some b := h2.symm.trans h
    exact Option.some.inj this
  subst hcb
  have hperm1 : List.Perm fl (c :: eraseLast p fl) := by
    have e1 : List.Perm fl fl.reverse := (List.reverse_perm fl).symm
    have e2 : List.Perm fl.reverse (c :: (l1 ++ l2)) := by
      rw [hdec]; exact List.perm_middle
    have e3 : List.Perm (l1 ++ l2) (eraseLast p fl) := by
      rw [eraseLast, herase]
      exact (List.reverse_perm _).symm
    exact e1.trans (e2.trans (e3.cons c))
  refine ⟨hperm1, ?_⟩
  have e4 : replaceFirst p f fl.reverse = l1 ++ f c :: l2 := by
    rw [hdec]; exact replaceFirst_of_decomp f l1 l2 c hno hpc
  have e5 : List.Perm (replaceLast p f fl) (l1 ++ f c :: l2) := by
    rw [replaceLast, e4]; exact List.reverse_perm _
  have e6 : List.Perm (l1 ++ f c :: l2 : List Block) (f c :: (l1 ++ l2)) := List.perm_middle
  have e7 : List.Perm (l1 ++ l2) (eraseLast p fl) := by
    rw [eraseLast, herase]
    exact (List.reverse_perm _).symm
  exact e5.trans (e6.trans (e7.cons _))

theorem eraseLast_subset {p : Block → Bool} {fl : List Block} {b : Block}
    (h : b ∈ eraseLast p fl) : b ∈ fl := by
  rw [eraseLast, List.mem_reverse] at h
  have := List.Sublist.mem h (List.eraseP_sublist _)
  exact List.mem_reverse.mp this

theorem exists_perm_eraseLast {p : Block → Bool} {fl : List Block} {b : Block}
    (hb : b ∈ fl) (hpb : p b) :
    ∃ c, p c = true ∧ c ∈ fl ∧ List.Perm fl (c :: eraseLast p fl) := by
  cases heq : findLast p fl with
  | none =>
    exact absurd hpb (findLast_eq_none.mp heq b hb)
  | some c =>
    have hprop := findLast_prop heq
    exact ⟨c, hprop.1, hprop.2, (findLast_decomp heq id).1⟩

/-! ### Allocation lemmas -/

theorem allocLoop_none {needed : Nat} {fl : List Block}
    (h : ∀ b ∈ fl, b.len < needed) : allocLoop needed fl = none := by
  induction fl with
  | nil => rfl
  | cons fb rest ih =>
    have h1 : fb.len < needed := h fb (List.mem_cons_self _ _)
    have h2 : allocLoop needed rest = none := ih fun b hb => h b (List.mem_cons_of_mem _ hb)
    simp [allocLoop, h1, h2]

theorem allocLoop_first_fit {needed : Nat} (pre post : List Block) (fb : Block)
    (hpre : ∀ b ∈ pre, b.len < needed) (hfb : needed ≤ fb.len) :
    allocLoop needed (pre ++ fb :: post) =
      if fb.len - needed < free_block_size then
        some (fb.addr + used_block_size, ⟨fb.addr, fb.len⟩, pre ++ post)
      else
        some (fb.addr + fb.len - needed + used_block_size,
              ⟨fb.addr + fb.len - needed, needed⟩,
              pre ++ ⟨fb.addr, fb.len - needed⟩ :: post) := by
  induction pre with
  | nil =>
    rw [List.nil_append, allocLoop, if_neg (by omega)]
    by_cases hl : fb.len - needed < free_block_size
    · rw [if_pos hl, if_pos hl]; rfl
    · rw [if_neg hl, if_neg hl]; rfl
  | cons d pre ih =>
    have hd : d.len < needed := hpre d (List.mem_cons_self _ _)
    have h2 := ih fun b hb => hpre b (List.mem_cons_of_mem _ hb)
    rw [List.cons_append, allocLoop, if_pos hd, h2]
    by_cases hl : fb.len - needed < free_block_size
    · rw [if_pos hl, if_pos hl]; rfl
    · rw [if_neg hl, if_neg hl]; rfl

theorem allocLoop_inv {needed : Nat} {fl fl' : List Block} {ptr : Nat} {u : Block}
    (h : allocLoop needed fl = some (ptr, u, fl')) :
    ∃ pre fb post, fl = pre ++ fb :: post ∧ (∀ b ∈ pre, b.len < needed) ∧ needed ≤ fb.len ∧
      ((fb.len - needed < free_block_size ∧ ptr = fb.addr + used_block_size ∧
        u = ⟨fb.addr, fb.len⟩ ∧ fl' = pre ++ post)
       ∨ (free_block_size ≤ fb.len - needed ∧
          ptr = fb.addr + fb.len - needed + used_block_size ∧
          u = ⟨fb.addr + fb.len - needed, needed⟩ ∧
          fl' = pre ++ ⟨fb.addr, fb.len - needed⟩ :: post)) := by
  induction fl generalizing ptr u fl' with
  | nil => simp [allocLoop] at h
  | cons fb rest ih =>
    rw [allocLoop] at h
    by_cases h1 : fb.len < needed
    · rw [if_pos h1] at h
      cases heq : allocLoop needed rest with
      | none => rw [heq] at h; simp at h
      | some val =>
        obtain ⟨ptr0, u0, rest'⟩ := val
        rw [heq] at h
        simp only [Option.some.injEq, Prod.mk.injEq] at h
        obtain ⟨rfl, rfl, rfl⟩ := h
        obtain ⟨pre, fb0, post, hdec, hpre, hfb0, hcase⟩ := ih heq
        refine ⟨fb :: pre, fb0, post, by rw [hdec, List.cons_append], ?_, hfb0, ?_⟩
        · intro b hb
          rcases List.mem_cons.mp hb with rfl | hb0
          · exact h1
          · exact hpre b hb0
        · rcases hcase with ⟨hA, hB, hC, hD⟩ | ⟨hA, hB, hC, hD⟩
          · exact Or.inl ⟨hA, hB, hC, by rw [hD, List.cons_append]⟩
          · exact Or.inr ⟨hA, hB, hC, by rw [hD, List.cons_append]⟩
    · rw [if_neg h1] at h
      by_cases h2 : fb.len - needed < free_block_size
      · rw [if_pos h2] at h
        simp only [Option.some.injEq, Prod.mk.injEq] at h
        obtain ⟨rfl, rfl, rfl⟩ := h
        exact ⟨[], fb, rest, rfl, by simp, by omega, Or.inl ⟨h2, rfl, rfl, rfl⟩⟩
      · rw [if_neg h2] at h
        simp only [Option.some.injEq, Prod.mk.injEq] at h
        obtain ⟨rfl, rfl, rfl⟩ := h
        exact ⟨[], fb, rest, rfl, by simp, by omega, Or.inr ⟨by omega, rfl, rfl, rfl⟩⟩

theorem mem_alloc_inv {length : Nat} {fl fl' : List Block} {ptr : Nat} {u : Block}
    (h : mem_alloc length fl = some (ptr, u, fl')) :
    ∃ pre fb post, fl = pre ++ fb :: post
      ∧ (∀ b ∈ pre, b.len < size_needed length) ∧ size_needed length ≤ fb.len ∧
      ((fb.len - size_needed length < free_block_size ∧ ptr = fb.addr + used_block_size ∧
        u = ⟨fb.addr, fb.len⟩ ∧ fl' = pre ++ post)
       ∨ (free_block_size ≤ fb.len - size_needed length ∧
          ptr = fb.addr + fb.len - size_needed length + used_block_size ∧
          u = ⟨fb.addr + fb.len - size_needed length, size_needed length⟩ ∧
          fl' = pre ++ ⟨fb.addr, fb.len - size_needed length⟩ :: post)) :=
  allocLoop_inv h

theorem size_needed_ge (length : Nat) : free_block_size ≤ size_needed length := by
  rw [size_needed, clampLen]
  by_cases h : length < free_block_size - used_block_size
  · rw [if_pos h]; decide
  · rw [if_neg h]
    have : free_block_size - used_block_size ≤ length := by omega
    show free_block_size ≤ length + used_block_size
    omega

/-! ### The quiescent-state invariant -/

/-- Well-formedness of a quiescent allocator state for an arena
`[base, base + len)`: the free and used blocks together tile the arena,
all blocks have positive length (used blocks even have a full
free-block-header's worth, since `mem_alloc` clamps), and no free block is
immediately followed by another free block. -/
def WF (base len : Nat) (s : AllocState) : Prop :=
  tiles base (base + len) (s.freeList ++ s.used)
  ∧ (∀ b ∈ s.freeList, 0 < b.len)
  ∧ (∀ b ∈ s.used, free_block_size ≤ b.len)
  ∧ NoAdjFree s.freeList

theorem noAdjFree_perm {fl fl' : List Block} (hp : List.Perm fl fl')
    (h : NoAdjFree fl) : NoAdjFree fl' := by
  intro b hb c hc
  exact h b (hp.mem_iff.mpr hb) c (hp.mem_iff.mpr hc)

theorem wf_init {base len : Nat} (h : 0 < len) : WF base len (mem_init base len) := by
  refine ⟨⟨[⟨base, len⟩], by simp [mem_init], ?_⟩, ?_, ?_, ?_⟩
  · exact chain.cons _ _ _ _ rfl (chain.nil (base + len))
  · intro b hb
    simp [mem_init] at hb
    rw [hb]
    exact h
  · intro b hb
    simp [mem_init] at hb
  · intro b hb c hc
    simp [mem_init] at hb hc
    rw [hb, hc]
    simp
    omega

theorem perm_shuffle (pre post rest : List Block) (x : Block) :
    List.Perm ((pre ++ x :: post) ++ rest) (x :: ((pre ++ post) ++ rest)) :=
  List.perm_middle.append_right rest

theorem wf_allocStep {base len : Nat} {s : AllocState} {n ptr : Nat} {u : Block}
    {fl' : List Block} (hwf : WF base len s)
    (h : mem_alloc n s.freeList = some (ptr, u, fl')) :
    WF base len ⟨fl', u :: s.used⟩ := by
  obtain ⟨htiles, hfpos, hupos, hadj⟩ := hwf
  obtain ⟨pre, fb, post, hdec, hpre, hfb, hcase⟩ := mem_alloc_inv h
  have hneed24 : free_block_size ≤ size_needed n := size_needed_ge n
  have h24 : 0 < free_block_size := by decide
  have hfbfl : fb ∈ s.freeList := by
    rw [hdec]; exact List.mem_append_right _ (List.mem_cons_self _ _)
  have hmemfl : ∀ c : Block, c ∈ pre ∨ c ∈ post → c ∈ s.freeList := by
    intro c hc
    rw [hdec]
    rcases hc with hc | hc
    · exact List.mem_append_left _ hc
    · exact List.mem_append_right _ (List.mem_cons_of_mem _ hc)
  have holdp : List.Perm (s.freeList ++ s.used)
      (fb :: ((pre ++ post) ++ s.used)) := by
    rw [hdec]; exact perm_shuffle pre post s.used fb
  rcases hcase with ⟨hA, hB, rfl, rfl⟩ | ⟨hA, hB, rfl, rfl⟩
  · -- whole block consumed: the used block takes over fb's entire span
    have hup : List.Perm ((pre ++ post) ++ (⟨fb.addr, fb.len⟩ :: s.used))
        (fb :: ((pre ++ post) ++ s.used)) := List.perm_middle
    refine ⟨tiles_perm (holdp.trans hup.symm) htiles, ?_, ?_, ?_⟩
    · intro c hc
      rcases List.mem_append.mp hc with hc | hc
      · exact hfpos c (hmemfl c (Or.inl hc))
      · exact hfpos c (hmemfl c (Or.inr hc))
    · intro c hc
      rcases List.mem_cons.mp hc with rfl | hc
      · show free_block_size ≤ fb.len
        omega
      · exact hupos c hc
    · intro c hc d hd
      have hc' : c ∈ s.freeList := by
        rcases List.mem_append.mp hc with hc | hc
        · exact hmemfl c (Or.inl hc)
        · exact hmemfl c (Or.inr hc)
      have hd' : d ∈ s.freeList := by
        rcases List.mem_append.mp hd with hd | hd
        · exact hmemfl d (Or.inl hd)
        · exact hmemfl d (Or.inr hd)
      exact hadj c hc' d hd'
  · -- split: free block keeps its address, used block carved from the top
    have haddr : fb.addr + fb.len - size_needed n = fb.addr + (fb.len - size_needed n) := by
      omega
    rw [haddr]
    have hnewp : List.Perm
        ((pre ++ ⟨fb.addr, fb.len - size_needed n⟩ :: post)
          ++ (⟨fb.addr + (fb.len - size_needed n), size_needed n⟩ :: s.used))
        (⟨fb.addr, fb.len - size_needed n⟩ ::
          ⟨fb.addr + (fb.len - size_needed n), size_needed n⟩ :: ((pre ++ post) ++ s.used)) := by
      have e1 := perm_shuffle pre post
        (⟨fb.addr + (fb.len - size_needed n), size_needed n⟩ :: s.used)
        (⟨fb.addr, fb.len - size_needed n⟩ : Block)
      have e2 : List.Perm
          ((pre ++ post) ++ (⟨fb.addr + (fb.len - size_needed n), size_needed n⟩ :: s.used))
          (⟨fb.addr + (fb.len - size_needed n), size_needed n⟩ :: ((pre ++ post) ++ s.used)) :=
        List.perm_middle
      exact e1.trans (e2.cons _)
    have hsplit : tiles base (base + len)
        (⟨fb.addr, fb.len - size_needed n⟩ ::
          ⟨fb.addr + (fb.len - size_needed n), size_needed n⟩ :: ((pre ++ post) ++ s.used)) := by
      have h1 : tiles base (base + len)
          ((⟨fb.addr, fb.len⟩ : Block) :: ((pre ++ post) ++ s.used)) :=
        tiles_perm holdp htiles
      exact tiles_split h1 hfb
    refine ⟨tiles_perm hnewp.symm hsplit, ?_, ?_, ?_⟩
    · intro c hc
      rcases List.mem_append.mp hc with hc | hc
      · exact hfpos c (hmemfl c (Or.inl hc))
      · rcases List.mem_cons.mp hc with rfl | hc
        · show 0 < fb.len - size_needed n
          omega
        · exact hfpos c (hmemfl c (Or.inr hc))
    · intro c hc
      rcases List.mem_cons.mp hc with rfl | hc
      · show free_block_size ≤ size_needed n
        exact hneed24
      · exact hupos c hc
    · -- no two free blocks adjacent: the shrunk block now ends where the
      -- new used block starts, and tiling rules out any free block there
      intro c hc d hd
      have hmem' : ∀ e : Block, e ∈ pre ++ ⟨fb.addr, fb.len - size_needed n⟩ :: post →
          e = ⟨fb.addr, fb.len - size_needed n⟩ ∨ e ∈ s.freeList := by
        intro e he
        rcases List.mem_append.mp he with he | he
        · exact Or.inr (hmemfl e (Or.inl he))
        · rcases List.mem_cons.mp he with rfl | he
          · exact Or.inl rfl
          · exact Or.inr (hmemfl e (Or.inr he))
      rcases hmem' c hc with rfl | hc' <;> rcases hmem' d hd with rfl | hd'
      · -- both are the shrunk block
        show fb.addr + (fb.len - size_needed n) ≠ fb.addr
        omega
      · -- c is the shrunk block, d an untouched free block
        show fb.addr + (fb.len - size_needed n) ≠ d.addr
        intro heq
        have hdall : d ∈ s.freeList ++ s.used := List.mem_append_left _ hd'
        have hfball : fb ∈ s.freeList ++ s.used := List.mem_append_left _ hfbfl
        have hdpos : 0 < d.len := hfpos d hd'
        have : d = fb := by
          refine tiles_disjoint htiles d hdall fb hfball
            (fb.addr + (fb.len - size_needed n)) ?_ ?_ ?_ ?_
          · omega
          · omega
          · omega
          · omega
        subst this
        omega
      · -- c untouched, d the shrunk block (same address as fb)
        show c.addr + c.len ≠ fb.addr
        exact hadj c hc' fb hfbfl
      · exact hadj c hc' d hd'

/-- Unfolding of `mem_free` for a pointer obtained from a used block `b`
(data pointer `b.addr + used_block_size`, stored payload length
`b.len - used_block_size`). -/
theorem mem_free_spec (b : Block) (fl : List Block) (hb : free_block_size ≤ b.len) :
    mem_free (dataPtr b) (b.len - used_block_size) fl =
      match findLast (fun fb => fb.addr + fb.len == b.addr) fl,
            findLast (fun fb => fb.addr == b.addr + b.len) fl with
      | none, none => list_insert_ordered ⟨b.addr, b.len⟩ fl
      | some _, none => replaceLast (fun fb => fb.addr + fb.len == b.addr)
          (fun fb => ⟨fb.addr, fb.len + b.len⟩) fl
      | none, some fa => eraseLast (fun fb => fb.addr == b.addr + b.len)
          (list_insert_ordered ⟨b.addr, b.len + fa.len⟩ fl)
      | some _, some fa => eraseLast (fun fb => fb.addr == b.addr + b.len)
          (replaceLast (fun fb => fb.addr + fb.len == b.addr)
            (fun fb => ⟨fb.addr, fb.len + b.len + fa.len⟩) fl) := by
  have h8 : used_block_size ≤ free_block_size := by decide
  have hav : used_block_size + (b.len - used_block_size) = b.len := by omega
  simp only [mem_free, dataPtr, Nat.add_sub_cancel, hav]

theorem noAdjFree_sub {E fl : List Block} (hsub : ∀ c ∈ E, c ∈ fl)
    (h : NoAdjFree fl) : NoAdjFree E :=
  fun c hc d hd => h c (hsub c hc) d (hsub d hd)

theorem noAdjFree_cons {x : Block} {E : List Block}
    (hE : NoAdjFree E)
    (h1 : ∀ c ∈ E, c.addr + c.len ≠ x.addr)
    (h2 : ∀ c ∈ E, x.addr + x.len ≠ c.addr)
    (h3 : x.addr + x.len ≠ x.addr) : NoAdjFree (x :: E) := by
  intro c hc d hd
  rcases List.mem_cons.mp hc with rfl | hc0
  · rcases List.mem_cons.mp hd with rfl | hd0
    · exact h3
    · exact h2 d hd0
  · rcases List.mem_cons.mp hd with rfl | hd0
    · exact h1 c hc0
    · exact hE c hc0 d hd0

theorem wf_freeStep {base len : Nat} {s : AllocState} {b : Block}
    (hwf : WF base len s) (hb : b ∈ s.used) :
    WF base len (freeStep b s) := by
  obtain ⟨htiles, hfpos, hupos, hadj⟩ := hwf
  have hblen : free_block_size ≤ b.len := hupos b hb
  have h24pos : 0 < free_block_size := by decide
  have hbpos : 0 < b.len := by omega
  have husedp : List.Perm s.used (b :: s.used.erase b) := List.perm_cons_erase hb
  have hUsub : ∀ c ∈ s.used.erase b, c ∈ s.used := fun c hc => List.mem_of_mem_erase hc
  have hposall : ∀ c ∈ s.freeList ++ s.used, 0 < c.len := by
    intro c hc
    rcases List.mem_append.mp hc with hc | hc
    · exact hfpos c hc
    · have := hupos c hc; omega
  simp only [freeStep]
  rw [mem_free_spec b s.freeList hblen]
  cases hbef : findLast (fun fb => fb.addr + fb.len == b.addr) s.freeList with
  | none =>
    have hnb : ∀ f ∈ s.freeList, f.addr + f.len ≠ b.addr := by
      intro f hf
      have := findLast_eq_none.mp hbef f hf
      simpa using this
    cases haft : findLast (fun fb => fb.addr == b.addr + b.len) s.freeList with
    | none =>
      -- neither neighbour free: the freed span becomes a new free block
      have hna : ∀ f ∈ s.freeList, f.addr ≠ b.addr + b.len := by
        intro f hf
        have := findLast_eq_none.mp haft f hf
        simpa using this
      have hip : List.Perm (list_insert_ordered ⟨b.addr, b.len⟩ s.freeList)
          ((⟨b.addr, b.len⟩ : Block) :: s.freeList) := insert_ordered_perm _ _
      have hnew : List.Perm
          (list_insert_ordered ⟨b.addr, b.len⟩ s.freeList ++ s.used.erase b)
          (b :: (s.freeList ++ s.used.erase b)) := hip.append_right _
      have hold : List.Perm (s.freeList ++ s.used)
          (b :: (s.freeList ++ s.used.erase b)) :=
        (husedp.append_left s.freeList).trans List.perm_middle
      refine ⟨tiles_perm (hold.trans hnew.symm) htiles, ?_, ?_, ?_⟩
      · intro c hc
        rcases insert_ordered_mem.mp hc with rfl | hc0
        · exact hbpos
        · exact hfpos c hc0
      · exact fun c hc => hupos c (hUsub c hc)
      · refine noAdjFree_perm hip.symm (noAdjFree_cons hadj ?_ ?_ ?_)
        · exact hnb
        · exact fun c hc he => hna c hc he.symm
        · show b.addr + b.len ≠ b.addr
          omega
    | some faft =>
      -- free successor only: merge it into a new block, remove the old node
      have hprop2 := findLast_prop haft
      have heq2 : faft.addr = b.addr + b.len := by simpa using hprop2.1
      have hfaftfl : faft ∈ s.freeList := hprop2.2
      have hfaftpos : 0 < faft.len := hfpos faft hfaftfl
      have hdec2 := findLast_decomp haft id
      have hp1 : List.Perm s.freeList
          (faft :: eraseLast (fun fb => fb.addr == b.addr + b.len) s.freeList) := hdec2.1
      have hE2sub : ∀ c ∈ eraseLast (fun fb => fb.addr == b.addr + b.len) s.freeList,
          c ∈ s.freeList := fun c hc => eraseLast_subset hc
      -- the erased node of the outer eraseLast is exactly faft
      have hfaft_in : faft ∈ list_insert_ordered ⟨b.addr, b.len + faft.len⟩ s.freeList :=
        insert_ordered_mem.mpr (Or.inr hfaftfl)
      obtain ⟨c, hpc, hcin, hcp⟩ :=
        exists_perm_eraseLast (p := fun fb => fb.addr == b.addr + b.len) hfaft_in hprop2.1
      have hcfaft : c = faft := by
        rcases insert_ordered_mem.mp hcin with rfl | hcfl
        · exfalso
          have : b.addr = b.addr + b.len := by simpa using hpc
          omega
        · have hcaddr : c.addr = b.addr + b.len := by simpa using hpc
          exact tiles_addr_unique htiles hposall c (List.mem_append_left _ hcfl)
            faft (List.mem_append_left _ hfaftfl) (by omega)
      rw [hcfaft] at hcp
      -- hcp : inserted list ~ faft :: result; deduce result ~ new block :: E2
      have hfl' : List.Perm
          (eraseLast (fun fb => fb.addr == b.addr + b.len)
            (list_insert_ordered ⟨b.addr, b.len + faft.len⟩ s.freeList))
          ((⟨b.addr, b.len + faft.len⟩ : Block) ::
            eraseLast (fun fb => fb.addr == b.addr + b.len) s.freeList) := by
        have e1 := hcp.symm.trans (insert_ordered_perm _ _)
        have e2 := e1.trans (hp1.cons _)
        have e3 := e2.trans (List.Perm.swap faft ⟨b.addr, b.len + faft.len⟩ _)
        exact e3.cons_inv
      have hfaq : (⟨b.addr + b.len, faft.len⟩ : Block) = faft := by rw [← heq2]
      have hold : List.Perm (s.freeList ++ s.used)
          (b :: faft ::
            (eraseLast (fun fb => fb.addr == b.addr + b.len) s.freeList ++ s.used.erase b)) := by
        have e1 := hp1.append husedp
        have e2 : List.Perm
            (faft :: (eraseLast (fun fb => fb.addr == b.addr + b.len) s.freeList
              ++ b :: s.used.erase b))
            (faft :: b ::
              (eraseLast (fun fb => fb.addr == b.addr + b.len) s.freeList ++ s.used.erase b)) :=
          (List.perm_middle).cons faft
        exact (e1.trans e2).trans (List.Perm.swap b faft _)
      have hmerged : tiles base (base + len)
          ((⟨b.addr, b.len + faft.len⟩ : Block) ::
            (eraseLast (fun fb => fb.addr == b.addr + b.len) s.freeList ++ s.used.erase b)) := by
        have ht0 := tiles_perm hold htiles
        have ht1 : tiles base (base + len)
            ((⟨b.addr, b.len⟩ : Block) :: (⟨b.addr + b.len, faft.len⟩ : Block) ::
              (eraseLast (fun fb => fb.addr == b.addr + b.len) s.freeList
                ++ s.used.erase b)) := by
          rw [hfaq]; exact ht0
        refine tiles_merge ht1 hbpos hfaftpos ?_
        intro d hd
        rcases List.mem_append.mp hd with hd | hd
        · exact hfpos d (hE2sub d hd)
        · have := hupos d (hUsub d hd); omega
      have hnew : List.Perm
          (eraseLast (fun fb => fb.addr == b.addr + b.len)
            (list_insert_ordered ⟨b.addr, b.len + faft.len⟩ s.freeList) ++ s.used.erase b)
          ((⟨b.addr, b.len + faft.len⟩ : Block) ::
            (eraseLast (fun fb => fb.addr == b.addr + b.len) s.freeList ++ s.used.erase b)) :=
        hfl'.append_right _
      refine ⟨tiles_perm hnew.symm hmerged, ?_, ?_, ?_⟩
      · intro c hc
        rcases List.mem_cons.mp (hfl'.mem_iff.mp hc) with rfl | hc0
        · show 0 < b.len + faft.len
          omega
        · exact hfpos c (hE2sub c hc0)
      · exact fun c hc => hupos c (hUsub c hc)
      · refine noAdjFree_perm hfl'.symm (noAdjFree_cons ?_ ?_ ?_ ?_)
        · exact noAdjFree_sub hE2sub hadj
        · exact fun c hc => hnb c (hE2sub c hc)
        · intro c hc hcontra
          have hc2 : b.addr + (b.len + faft.len) = c.addr := hcontra
          refine hadj faft hfaftfl c (hE2sub c hc) ?_
          omega
        · show b.addr + (b.len + faft.len) ≠ b.addr
          omega
  | some fbef =>
    have hprop1 := findLast_prop hbef
    have heq1 : fbef.addr + fbef.len = b.addr := by simpa using hprop1.1
    have hfbeffl : fbef ∈ s.freeList := hprop1.2
    have hfbefpos : 0 < fbef.len := hfpos fbef hfbeffl
    cases haft : findLast (fun fb => fb.addr == b.addr + b.len) s.freeList with
    | none =>
      -- free predecessor only: extend it in place
      have hna : ∀ f ∈ s.freeList, f.addr ≠ b.addr + b.len := by
        intro f hf
        have := findLast_eq_none.mp haft f hf
        simpa using this
      have hdec1 := findLast_decomp hbef (fun fb => ⟨fb.addr, fb.len + b.len⟩)
      have hp1 : List.Perm s.freeList
          (fbef :: eraseLast (fun fb => fb.addr + fb.len == b.addr) s.freeList) := hdec1.1
      have hp2 : List.Perm
          (replaceLast (fun fb => fb.addr + fb.len == b.addr)
            (fun fb => ⟨fb.addr, fb.len + b.len⟩) s.freeList)
          ((⟨fbef.addr, fbef.len + b.len⟩ : Block) ::
            eraseLast (fun fb => fb.addr + fb.len == b.addr) s.freeList) := hdec1.2
      have hE1sub : ∀ c ∈ eraseLast (fun fb => fb.addr + fb.len == b.addr) s.freeList,
          c ∈ s.freeList := fun c hc => eraseLast_subset hc
      have hbeq : (⟨fbef.addr + fbef.len, b.len⟩ : Block) = b := by rw [heq1]
      have hold : List.Perm (s.freeList ++ s.used)
          (fbef :: b ::
            (eraseLast (fun fb => fb.addr + fb.len == b.addr) s.freeList
              ++ s.used.erase b)) := by
        have e1 := hp1.append husedp
        have e2 : List.Perm
            (fbef :: (eraseLast (fun fb => fb.addr + fb.len == b.addr) s.freeList
              ++ b :: s.used.erase b))
            (fbef :: b ::
              (eraseLast (fun fb => fb.addr + fb.len == b.addr) s.freeList
                ++ s.used.erase b)) :=
          (List.perm_middle).cons fbef
        exact e1.trans e2
      have hmerged : tiles base (base + len)
          ((⟨fbef.addr, fbef.len + b.len⟩ : Block) ::
            (eraseLast (fun fb => fb.addr + fb.len == b.addr) s.freeList
              ++ s.used.erase b)) := by
        have ht0 := tiles_perm hold htiles
        have ht1 : tiles base (base + len)
            ((⟨fbef.addr, fbef.len⟩ : Block) :: (⟨fbef.addr + fbef.len, b.len⟩ : Block) ::
              (eraseLast (fun fb => fb.addr + fb.len == b.addr) s.freeList
                ++ s.used.erase b)) := by
          rw [hbeq]; exact ht0
        refine tiles_merge ht1 hfbefpos hbpos ?_
        intro d hd
        rcases List.mem_append.mp hd with hd | hd
        · exact hfpos d (hE1sub d hd)
        · have := hupos d (hUsub d hd); omega
      have hnew : List.Perm
          (replaceLast (fun fb => fb.addr + fb.len == b.addr)
            (fun fb => ⟨fb.addr, fb.len + b.len⟩) s.freeList ++ s.used.erase b)
          ((⟨fbef.addr, fbef.len + b.len⟩ : Block) ::
            (eraseLast (fun fb => fb.addr + fb.len == b.addr) s.freeList
              ++ s.used.erase b)) :=
        hp2.append_right _
      refine ⟨tiles_perm hnew.symm hmerged, ?_, ?_, ?_⟩
      · intro c hc
        rcases List.mem_cons.mp (hp2.mem_iff.mp hc) with rfl | hc0
        · show 0 < fbef.len + b.len
          omega
        · exact hfpos c (hE1sub c hc0)
      · exact fun c hc => hupos c (hUsub c hc)
      · refine noAdjFree_perm hp2.symm (noAdjFree_cons ?_ ?_ ?_ ?_)
        · exact noAdjFree_sub hE1sub hadj
        · exact fun c hc => hadj c (hE1sub c hc) fbef hfbeffl
        · intro c hc hcontra
          have hc2 : fbef.addr + (fbef.len + b.len) = c.addr := hcontra
          refine hna c (hE1sub c hc) ?_
          omega
        · show fbef.addr + (fbef.len + b.len) ≠ fbef.addr
          omega
    | some faft =>
      -- both neighbours free: extend the predecessor over the freed span and
      -- the successor, remove the successor node
      have hprop2 := findLast_prop haft
      have heq2 : faft.addr = b.addr + b.len := by simpa using hprop2.1
      have hfaftfl : faft ∈ s.freeList := hprop2.2
      have hfaftpos : 0 < faft.len := hfpos faft hfaftfl
      have hdec1 := findLast_decomp hbef (fun fb => ⟨fb.addr, fb.len + b.len + faft.len⟩)
      have hp1 : List.Perm s.freeList
          (fbef :: eraseLast (fun fb => fb.addr + fb.len == b.addr) s.freeList) := hdec1.1
      have hpmid : List.Perm
          (replaceLast (fun fb => fb.addr + fb.len == b.addr)
            (fun fb => ⟨fb.addr, fb.len + b.len + faft.len⟩) s.freeList)
          ((⟨fbef.addr, fbef.len + b.len + faft.len⟩ : Block) ::
            eraseLast (fun fb => fb.addr + fb.len == b.addr) s.freeList) := hdec1.2
      have hE1sub : ∀ c ∈ eraseLast (fun fb => fb.addr + fb.len == b.addr) s.freeList,
          c ∈ s.freeList := fun c hc => eraseLast_subset hc
      have hne : faft ≠ fbef := by
        intro he
        have h1 : faft.addr = fbef.addr := by rw [he]
        omega
      have hfaftE1 : faft ∈ eraseLast (fun fb => fb.addr + fb.len == b.addr) s.freeList := by
        rcases List.mem_cons.mp (hp1.mem_iff.mp hfaftfl) with he | he
        · exact absurd he hne
        · exact he
      have hfaft_mid : faft ∈ replaceLast (fun fb => fb.addr + fb.len == b.addr)
          (fun fb => ⟨fb.addr, fb.len + b.len + faft.len⟩) s.freeList :=
        hpmid.mem_iff.mpr (List.mem_cons_of_mem _ hfaftE1)
      obtain ⟨c, hpc, hcin, hcp⟩ :=
        exists_perm_eraseLast (p := fun fb => fb.addr == b.addr + b.len) hfaft_mid hprop2.1
      have hcfaft : c = faft := by
        rcases List.mem_cons.mp (hpmid.mem_iff.mp hcin) with rfl | hcE1
        · exfalso
          have : fbef.addr = b.addr + b.len := by simpa using hpc
          omega
        · have hcaddr : c.addr = b.addr + b.len := by simpa using hpc
          exact tiles_addr_unique htiles hposall c
            (List.mem_append_left _ (hE1sub c hcE1))
            faft (List.mem_append_left _ hfaftfl) (by omega)
      rw [hcfaft] at hcp
      have hE1p : List.Perm (eraseLast (fun fb => fb.addr + fb.len == b.addr) s.freeList)
          (faft :: (eraseLast (fun fb => fb.addr + fb.len == b.addr) s.freeList).erase faft) :=
        List.perm_cons_erase hfaftE1
      have hE1'sub : ∀ c ∈ (eraseLast (fun fb => fb.addr + fb.len == b.addr)
          s.freeList).erase faft, c ∈ s.freeList :=
        fun c hc => hE1sub c (List.mem_of_mem_erase hc)
      have hfl' : List.Perm
          (eraseLast (fun fb => fb.addr == b.addr + b.len)
            (replaceLast (fun fb => fb.addr + fb.len == b.addr)
              (fun fb => ⟨fb.addr, fb.len + b.len + faft.len⟩) s.freeList))
          ((⟨fbef.addr, fbef.len + b.len + faft.len⟩ : Block) ::
            (eraseLast (fun fb => fb.addr + fb.len == b.addr) s.freeList).erase faft) := by
        have e1 := hcp.symm.trans hpmid
        have e2 := e1.trans (hE1p.cons _)
        have e3 := e2.trans
          (List.Perm.swap faft ⟨fbef.addr, fbef.len + b.len + faft.len⟩ _)
        exact e3.cons_inv
      have hbeq : (⟨fbef.addr + fbef.len, b.len⟩ : Block) = b := by rw [heq1]
      have hfaq2 : (⟨fbef.addr + (fbef.len + b.len), faft.len⟩ : Block) = faft := by
        have he : fbef.addr + (fbef.len + b.len) = faft.addr := by omega
        rw [he]
      have hold : List.Perm (s.freeList ++ s.used)
          (fbef :: b :: faft ::
            ((eraseLast (fun fb => fb.addr + fb.len == b.addr) s.freeList).erase faft
              ++ s.used.erase b)) := by
        have e1 := hp1.append husedp
        have e2 : List.Perm
            (eraseLast (fun fb => fb.addr + fb.len == b.addr) s.freeList
              ++ b :: s.used.erase b)
            (b :: (eraseLast (fun fb => fb.addr + fb.len == b.addr) s.freeList
              ++ s.used.erase b)) := List.perm_middle
        have e3 : List.Perm
            (eraseLast (fun fb => fb.addr + fb.len == b.addr) s.freeList ++ s.used.erase b)
            (faft :: ((eraseLast (fun fb => fb.addr + fb.len == b.addr) s.freeList).erase faft
              ++ s.used.erase b)) := hE1p.append_right _
        exact e1.trans (((e2.trans (e3.cons b)).cons fbef))
      have hmerged : tiles base (base + len)
          ((⟨fbef.addr, fbef.len + b.len + faft.len⟩ : Block) ::
            ((eraseLast (fun fb => fb.addr + fb.len == b.addr) s.freeList).erase faft
              ++ s.used.erase b)) := by
        have ht0 := tiles_perm hold htiles
        have hposrest : ∀ d ∈ ((eraseLast (fun fb => fb.addr + fb.len == b.addr)
            s.freeList).erase faft ++ s.used.erase b), 0 < d.len := by
          intro d hd
          rcases List.mem_append.mp hd with hd | hd
          · exact hfpos d (hE1'sub d hd)
          · have := hupos d (hUsub d hd); omega
        have ht1 : tiles base (base + len)
            ((⟨fbef.addr, fbef.len⟩ : Block) :: (⟨fbef.addr + fbef.len, b.len⟩ : Block) ::
              faft :: ((eraseLast (fun fb => fb.addr + fb.len == b.addr) s.freeList).erase faft
                ++ s.used.erase b)) := by
          rw [hbeq]; exact ht0
        have ht2 := tiles_merge ht1 hfbefpos hbpos (by
          intro d hd
          rcases List.mem_cons.mp hd with rfl | hd0
          · exact hfaftpos
          · exact hposrest d hd0)
        have ht3 : tiles base (base + len)
            ((⟨fbef.addr, fbef.len + b.len⟩ : Block) ::
              (⟨fbef.addr + (fbef.len + b.len), faft.len⟩ : Block) ::
              ((eraseLast (fun fb => fb.addr + fb.len == b.addr) s.freeList).erase faft
                ++ s.used.erase b)) := by
          rw [hfaq2]; exact ht2
        exact tiles_merge ht3 (by omega) hfaftpos hposrest
      have hnew : List.Perm
          (eraseLast (fun fb => fb.addr == b.addr + b.len)
            (replaceLast (fun fb => fb.addr + fb.len == b.addr)
              (fun fb => ⟨fb.addr, fb.len + b.len + faft.len⟩) s.freeList) ++ s.used.erase b)
          ((⟨fbef.addr, fbef.len + b.len + faft.len⟩ : Block) ::
            ((eraseLast (fun fb => fb.addr + fb.len == b.addr) s.freeList).erase faft
              ++ s.used.erase b)) :=
        hfl'.append_right _
      refine ⟨tiles_perm hnew.symm hmerged, ?_, ?_, ?_⟩
      · intro c hc
        rcases List.mem_cons.mp (hfl'.mem_iff.mp hc) with rfl | hc0
        · show 0 < fbef.len + b.len + faft.len
          omega
        · exact hfpos c (hE1'sub c hc0)
      · exact fun c hc => hupos c (hUsub c hc)
      · refine noAdjFree_perm hfl'.symm (noAdjFree_cons ?_ ?_ ?_ ?_)
        · exact noAdjFree_sub hE1'sub hadj
        · exact fun c hc => hadj c (hE1'sub c hc) fbef hfbeffl
        · intro c hc hcontra
          have hc2 : fbef.addr + (fbef.len + b.len + faft.len) = c.addr := hcontra
          refine hadj faft hfaftfl c (hE1'sub c hc) ?_
          omega
        · show fbef.addr + (fbef.len + b.len + faft.len) ≠ fbef.addr
          omega

theorem wf_step {base len : Nat} {s : AllocState} (hwf : WF base len s) (op : Op) :
    WF base len (step s op) := by
  cases op with
  | alloc n =>
    show WF base len (allocStep n s)
    rw [allocStep]
    cases h : mem_alloc n s.freeList with
    | none => exact hwf
    | some val =>
      obtain ⟨ptr, u, fl'⟩ := val
      exact wf_allocStep hwf h
  | free b =>
    show WF base len (if b ∈ s.used then freeStep b s else s)
    by_cases hb : b ∈ s.used
    · rw [if_pos hb]; exact wf_freeStep hwf hb
    · rw [if_neg hb]; exact hwf

theorem wf_run {base len : Nat} {s : AllocState} (hwf : WF base len s)
    (ops : List Op) : WF base len (run ops s) := by
  induction ops generalizing s with
  | nil => exact hwf
  | cons op ops ih => exact ih (wf_step hwf op)

theorem wf_runAllocs {base len : Nat} {reqs : List Nat} {s s1 : AllocState}
    (hwf : WF base len s) (h : runAllocs reqs s = some s1) : WF base len s1 := by
  induction reqs generalizing s with
  | nil =>
    rw [runAllocs] at h
    cases h
    exact hwf
  | cons n ns ih =>
    rw [runAllocs] at h
    cases heq : mem_alloc n s.freeList with
    | none => rw [heq] at h; simp at h
    | some val =>
      obtain ⟨ptr, u, fl'⟩ := val
      rw [heq] at h
      exact ih (wf_allocStep hwf heq) h

theorem wf_runFrees {base len : Nat} {s : AllocState} {order : List Block}
    (hwf : WF base len s) (hperm : List.Perm order s.used) :
    WF base len (runFrees order s) ∧ (runFrees order s).used = [] := by
  induction order generalizing s with
  | nil =>
    exact ⟨hwf, hperm.symm.eq_nil⟩
  | cons b rest ih =>
    have hbused : b ∈ s.used := hperm.mem_iff.mp (List.mem_cons_self _ _)
    have hwf' := wf_freeStep hwf hbused
    have hrest : List.Perm rest (freeStep b s).used :=
      (List.cons_perm_iff_perm_erase.mp hperm).2
    show WF base len (runFrees rest (freeStep b s))
      ∧ (runFrees rest (freeStep b s)).used = []
    exact ih hwf' hrest

/-- A free list that tiles the whole arena on its own, with no two adjacent
free blocks, is a single block spanning the arena. -/
theorem tiles_single {base len : Nat} {fl : List Block} (hlen : 0 < len)
    (ht : tiles base (base + len) fl) (hadj : NoAdjFree fl) : fl = [⟨base, len⟩] := by
  obtain ⟨l, hp, hc⟩ := ht
  generalize hhi : base + len = hi0 at hc
  cases l with
  | nil =>
    exfalso
    have := chain_sum hc
    simp [suml] at this
    omega
  | cons x rest =>
    cases hc with
    | cons _ _ _ _ hb hcrest =>
    cases rest with
    | nil =>
      have hxa : x.addr = base := hb
      have hxl : x.len = len := by
        have := chain_sum hcrest
        simp [suml] at this
        omega
      have hx : x = ⟨base, len⟩ := by
        rw [← hxa, ← hxl]
      rw [← hx]
      exact List.perm_singleton.mp hp
    | cons y rest2 =>
      exfalso
      cases hcrest with
      | cons _ _ _ _ hby hcrest2 =>
      have hxy : x.addr + x.len = y.addr := by
        have h1 : y.addr = base + x.len := hby
        omega
      have hxfl : x ∈ fl := hp.mem_iff.mpr (List.mem_cons_self _ _)
      have hyfl : y ∈ fl := hp.mem_iff.mpr
        (List.mem_cons_of_mem _ (List.mem_cons_self _ _))
      exact hadj x hxfl y hyfl hxy

/-! ### Claims -/

/-- C1: after every completed `mem_init`/`mem_alloc`/`mem_free` operation,
the free blocks and the outstanding used blocks together tile the arena —
every arena byte belongs to exactly one block, with no gaps and no
overlaps — and the sum of the free-block lengths plus the sum of the used
total spans equals the arena length. -/
theorem mem_conservation (base len : Nat) (ops : List Op) (h : 0 < len) :
    tiles base (base + len)
      ((run ops (mem_init base len)).freeList ++ (run ops (mem_init base len)).used)
    ∧ suml (run ops (mem_init base len)).freeList
        + suml (run ops (mem_init base len)).used = len
    ∧ (∀ x : Nat, base ≤ x → x < base + len →
        ∃ c, (c ∈ (run ops (mem_init base len)).freeList
                ++ (run ops (mem_init base len)).used
              ∧ c.addr ≤ x ∧ x < c.addr + c.len)
          ∧ ∀ d, (d ∈ (run ops (mem_init base len)).freeList
                ++ (run ops (mem_init base len)).used
              ∧ d.addr ≤ x ∧ x < d.addr + d.len) → d = c) := by
  obtain ⟨ht, hfpos, hupos, hadj⟩ := wf_run (wf_init h) ops
  refine ⟨ht, ?_, ?_⟩
  · have := tiles_sum ht
    rw [suml_append] at this
    omega
  · intro x h1 h2
    obtain ⟨c, hcmem, hc1, hc2⟩ := tiles_cover ht x h1 h2
    refine ⟨c, ⟨hcmem, hc1, hc2⟩, ?_⟩
    intro d hd
    exact tiles_disjoint ht d hd.1 c hcmem x hd.2.1 hd.2.2 hc1 hc2

theorem mem_conservation_witness :
    0 < 1024
    ∧ (tiles 0 (0 + 1024) ([⟨0, 1024⟩] ++ ([] : List Block))
      ∧ suml [⟨0, 1024⟩] + suml [] = 1024
      ∧ (∀ x : Nat, 0 ≤ x → x < 0 + 1024 →
          ∃ c, (c ∈ [(⟨0, 1024⟩ : Block)] ++ [] ∧ c.addr ≤ x ∧ x < c.addr + c.len)
            ∧ ∀ d, (d ∈ [(⟨0, 1024⟩ : Block)] ++ [] ∧ d.addr ≤ x ∧ x < d.addr + d.len)
                → d = c)) :=
  ⟨by decide, mem_conservation 0 1024 [Op.alloc 100, Op.free ⟨916, 108⟩] (by decide)⟩

/-- C2 is refuted on the code: after `mem_init 0 1024`, two allocations of
100 bytes each and `mem_free` of the first returned pointer (block 916),
the free list is `[block 916, block 0]` — descending, not strictly
ascending.  `compare` returns -1/0/1 from a `bool`-typed function, so
`list_insert_ordered` reads every comparison of distinct nodes as `true`
and inserts the new free block at the front. -/
theorem free_list_order_violation :
    (run [Op.alloc 100, Op.alloc 100, Op.free ⟨916, 108⟩] (mem_init 0 1024)).freeList
      = [⟨916, 108⟩, ⟨0, 808⟩]
    ∧ addrSorted (run [Op.alloc 100, Op.alloc 100, Op.free ⟨916, 108⟩]
        (mem_init 0 1024)).freeList = false := by
  decide

/-- C3: `mem_alloc` picks the first block in list order whose length is at
least the clamped request plus the used-block header.  If the leftover is
at least a free-block header, the used block is carved from the high end
and the free block keeps its address with its length shrunk by exactly the
required total size; otherwise the whole block is consumed, the leftover
absorbed into the allocation, and the node removed.  The returned pointer
is the address immediately past the installed used-block header. -/
theorem mem_alloc_first_fit (length : Nat) (pre post : List Block) (fb : Block)
    (hpre : ∀ b ∈ pre, b.len < size_needed length)
    (hfb : size_needed length ≤ fb.len) :
    mem_alloc length (pre ++ fb :: post) =
      if fb.len - size_needed length < free_block_size then
        some (fb.addr + used_block_size, ⟨fb.addr, fb.len⟩, pre ++ post)
      else
        some (fb.addr + fb.len - size_needed length + used_block_size,
              ⟨fb.addr + fb.len - size_needed length, size_needed length⟩,
              pre ++ ⟨fb.addr, fb.len - size_needed length⟩ :: post) :=
  allocLoop_first_fit pre post fb hpre hfb

theorem mem_alloc_first_fit_witness :
    (∀ b ∈ [(⟨0, 50⟩ : Block)], b.len < size_needed 100)
    ∧ size_needed 100 ≤ (⟨100, 400⟩ : Block).len
    ∧ mem_alloc 100 [⟨0, 50⟩, ⟨100, 400⟩, ⟨600, 50⟩]
        = some (400, ⟨392, 108⟩, [⟨0, 50⟩, ⟨100, 292⟩, ⟨600, 50⟩]) :=
  ⟨by decide, by decide,
    mem_alloc_first_fit 100 [⟨0, 50⟩] [⟨600, 50⟩] ⟨100, 400⟩ (by decide) (by decide)⟩

/-- C4 is refuted on the code in the no-adjacency case: freeing the span
`[916, 1024)` against the free list `[block 0]` inserts the new free block
at the front, not at the address-order-preserving position, because the
three-valued `compare` read as a boolean is `true` on any two distinct
nodes.  (The adjacency cases themselves — extend the predecessor in place,
merge with the successor and drop its node — do behave as described.) -/
theorem mem_free_insert_front_violation :
    mem_free 924 100 [⟨0, 808⟩] = [⟨916, 108⟩, ⟨0, 808⟩]
    ∧ mem_free 924 100 [⟨0, 808⟩] ≠ [⟨0, 808⟩, ⟨916, 108⟩] := by
  decide

/-- C5 is refuted on the code: `mem_free(NULL)` leaves the free list (and
the arena) untouched, but the early `return` at the null check executes
after `pthread_mutex_lock` and before any `pthread_mutex_unlock`, so the
call returns with the global lock still held and every later
`mem_alloc`/`mem_free` deadlocks.  The boolean component records whether
the lock is still held on return. -/
theorem mem_free_null_lock_leak :
    mem_free_entry 0 0 [⟨0, 1024⟩] = ([⟨0, 1024⟩], true) := by
  decide

/-- C6: when no free block is at least the clamped request plus the
used-block header, `mem_alloc` returns the failure indicator `NULL` and the
allocator state — every free-list entry's address and length — is exactly
unchanged. -/
theorem mem_alloc_oom_no_mutation (length : Nat) (s : AllocState)
    (h : ∀ b ∈ s.freeList, b.len < size_needed length) :
    mem_alloc length s.freeList = none ∧ allocStep length s = s := by
  have h1 : mem_alloc length s.freeList = none := allocLoop_none h
  refine ⟨h1, ?_⟩
  rw [allocStep, h1]

theorem mem_alloc_oom_no_mutation_witness :
    (∀ b ∈ (AllocState.mk [⟨0, 64⟩] []).freeList, b.len < size_needed 100)
    ∧ (mem_alloc 100 (AllocState.mk [⟨0, 64⟩] []).freeList = none
        ∧ allocStep 100 (AllocState.mk [⟨0, 64⟩] []) = AllocState.mk [⟨0, 64⟩] []) :=
  ⟨by decide, mem_alloc_oom_no_mutation 100 ⟨[⟨0, 64⟩], []⟩ (by decide)⟩

/-- C7: from a freshly initialized arena, any sequence of successful
allocations followed by `mem_free` of all of the returned pointers, in any
order, leaves the free list containing exactly one entry: the arena base
with the full arena length. -/
theorem full_reclamation (base len : Nat) (reqs : List Nat) (s1 : AllocState)
    (order : List Block) (h0 : 0 < len)
    (h1 : runAllocs reqs (mem_init base len) = some s1)
    (h2 : List.Perm order s1.used) :
    (runFrees order s1).freeList = [⟨base, len⟩] := by
  have hwf1 : WF base len s1 := wf_runAllocs (wf_init h0) h1
  obtain ⟨hwf2, hused⟩ := wf_runFrees hwf1 h2
  obtain ⟨ht, hfpos, hupos2, hadj⟩ := hwf2
  rw [hused, List.append_nil] at ht
  exact tiles_single h0 ht hadj

theorem full_reclamation_witness :
    0 < 1024
    ∧ runAllocs [100, 200] (mem_init 0 1024)
        = some ⟨[⟨0, 708⟩], [⟨708, 208⟩, ⟨916, 108⟩]⟩
    ∧ List.Perm [⟨916, 108⟩, (⟨708, 208⟩ : Block)]
        (AllocState.mk [⟨0, 708⟩] [⟨708, 208⟩, ⟨916, 108⟩]).used
    ∧ (runFrees [⟨916, 108⟩, ⟨708, 208⟩]
        (AllocState.mk [⟨0, 708⟩] [⟨708, 208⟩, ⟨916, 108⟩])).freeList = [⟨0, 1024⟩] :=
  ⟨by decide, by decide, by decide,
    full_reclamation 0 1024 [100, 200] ⟨[⟨0, 708⟩], [⟨708, 208⟩, ⟨916, 108⟩]⟩
      [⟨916, 108⟩, ⟨708, 208⟩] (by decide) (by decide) (by decide)⟩

/-- C8 is refuted on the code: `compare`, read as the boolean predicate the
ordered-insert contract expects, is not a strict less-than.  On a first
argument at the higher address it returns 1, which converts to `true`; a
genuine less-than would return `false`. -/
theorem compare_not_strict_less :
    compare 924 8 = true ∧ ¬ (924 < 8) := by
  decide

/-- C9: a request below the minimum payload (including 0) is clamped
upward, so any successful `mem_alloc` installs a used block whose total
span — header plus payload — is at least `sizeof(struct free_block)`,
large enough to become a valid free block if freed in isolation. -/
theorem mem_alloc_min_clamp (length ptr : Nat) (u : Block) (fl fl' : List Block)
    (hsmall : length < free_block_size - used_block_size)
    (h : mem_alloc length fl = some (ptr, u, fl')) :
    free_block_size ≤ u.len := by
  obtain ⟨pre, fb, post, hdec, hpre, hfb, hcase⟩ := mem_alloc_inv h
  have h24 := size_needed_ge length
  rcases hcase with ⟨hA, hB, rfl, hD⟩ | ⟨hA, hB, rfl, hD⟩
  · show free_block_size ≤ fb.len
    omega
  · show free_block_size ≤ size_needed length
    omega

theorem mem_alloc_min_clamp_witness :
    0 < free_block_size - used_block_size
    ∧ mem_alloc 0 [⟨0, 1024⟩] = some (1008, ⟨1000, 24⟩, [⟨0, 1000⟩])
    ∧ free_block_size ≤ (⟨1000, 24⟩ : Block).len :=
  ⟨by decide, by decide,
    mem_alloc_min_clamp 0 1008 ⟨1000, 24⟩ [⟨0, 1024⟩] [⟨0, 1000⟩] (by decide) (by decide)⟩

/-- C10: `mem_alloc` never combines several free blocks to satisfy one
request: when every individual free block is smaller than the clamped
request plus the used-block header, the allocation fails even though the
total free space exceeds the request. -/
theorem mem_alloc_no_cross_block (length : Nat) (fl : List Block)
    (h : ∀ b ∈ fl, b.len < size_needed length)
    (htotal : length < suml fl) :
    mem_alloc length fl = none :=
  allocLoop_none h

theorem mem_alloc_no_cross_block_witness :
    (∀ b ∈ [(⟨0, 30⟩ : Block), ⟨100, 30⟩], b.len < size_needed 40)
    ∧ 40 < suml [⟨0, 30⟩, ⟨100, 30⟩]
    ∧ mem_alloc 40 [⟨0, 30⟩, ⟨100, 30⟩] = none :=
  ⟨by decide, by decide,
    mem_alloc_no_cross_block 40 [⟨0, 30⟩, ⟨100, 30⟩] (by decide) (by decide)⟩

end MemAlloc
